import Mathlib

/-!
Verification of the page-manipulation utility `src/pdf_manipulation.py`
(a PyMuPDF/fitz front-end) against its natural-language specification.

A PDF `Document` is modelled by the ordered list of its pages; a page is an
arbitrary value of a type `α` (its identity), or — for the 2-in-1 layout,
where geometry matters — a width/height pair.  The external PDF engine
(fitz) is modelled through the operations the spec lists as its contract:
open, page count, page rectangle, new page, `show_pdf_page` into a target
rectangle, `insert_pdf` (append a page range), `delete_page` by 0-based
index, save, close.  Python exceptions are represented explicitly with
`PyErr`; a function that can raise returns `Except PyErr _` or records the
propagated exception in its result state.
-/

namespace PdfSpec

/-- Python exception kinds that the translated code can raise. -/
inductive PyErr : Type
  /-- `TypeError` (e.g. calling a module, or `len(None)`). -/
  | typeError
  /-- `ValueError` (raised by `check_pdf_args`, by `int(...)` on a bad
  string, and by the engine for an out-of-range page number). -/
  | valueError
  /-- `IndexError` (e.g. `parsed[0]` on an empty list). -/
  | indexError
deriving DecidableEq, Repr

/-- Embedding of `check_pdf_args` (src/pdf_manipulation.py, lines 36-42).
`openDoc` models `fitz.open(pdf_path)`, giving the document stored at a
path.  The source: if `pdf is None and pdf_path is not None` open the path;
elif `pdf is not None and pdf_path is None` use `pdf` as is; else raise
`ValueError("pdf or pdf_path must be specified")`. -/
def check_pdf_args {D P : Type} (openDoc : P → D)
    (pdf : Option D) (pdf_path : Option P) : Except PyErr D :=
  match pdf, pdf_path with
  | none, some path => .ok (openDoc path)
  | some d, none => .ok d
  | _, _ => .error .valueError

/-- Model of the engine primitive `Document.delete_page(pno)` with a
0-based index, per the spec's external-collaborator contract ("delete page
by 0-based index"): a valid index removes exactly that page, an invalid one
raises.  (fitz also accepts negative indices counting from the end; that
corner is outside the spec's contract and is modelled as a raise, and no
theorem below touches it: all claims are about valid 1-based pages.) -/
def delete_page {α : Type} (doc : List α) (pno : Int) : Except PyErr (List α) :=
  if 0 ≤ pno ∧ pno < doc.length then .ok (doc.eraseIdx pno.toNat)
  else .error .valueError

/-- Python's `list.sort(reverse=True)` on a list of integers: sort into
descending order (src line 107). -/
def sortDesc (l : List Int) : List Int :=
  List.insertionSort (fun a b => a ≥ b) l

/-- Argument `del_pages` of `del_pdf_pages`: a Python `int`, a Python
`list` of ints, or a value of any other type (`None`, a string, ...),
which the source's `type(...)` dispatch sends to the error branch. -/
inductive DelPagesArg : Type
  | int (n : Int)
  | list (l : List Int)
  | other
deriving DecidableEq, Repr

/-- Observable outcome of one `del_pdf_pages` call.  `doc` is the final
page sequence of the resolved document, `savedOutput` the page sequence
written to `output_path` (`none` when no file was written), `closed`
whether `doc.close()` ran, `errorPrinted` whether the
"Error: del_pages must be int or list" message was printed,
`delPagesAfter` the final state of the caller's `del_pages` argument
(Python's in-place `sort` mutates it), and `raised` the engine exception
propagated to the caller, if any. -/
structure DelPagesResult (α : Type) : Type where
  doc : List α
  savedOutput : Option (List α)
  closed : Bool
  errorPrinted : Bool
  delPagesAfter : DelPagesArg
  raised : Option PyErr
deriving DecidableEq, Repr

/-- The deletion loop of `del_pdf_pages` (src lines 108-109):
`for p in del_pages: doc.delete_page(p-1)`.  On an engine raise the loop
stops; deletions already made stay in place. -/
def delListLoop {α : Type} (doc : List α) : List Int → List α × Option PyErr
  | [] => (doc, none)
  | p :: ps =>
    match delete_page doc (p - 1) with
    | .ok d => delListLoop d ps
    | .error e => (doc, some e)

/-- Embedding of `del_pdf_pages` (src lines 104-116) after the document
has been resolved by `check_pdf_args`.  `type(del_pages) == int`: delete
the single 1-based page; `type(del_pages) == list`: sort the caller's list
in place descending, then delete each; any other type: print the error
message and return (no save, no close, document untouched).  On success
the document is saved to `output_path` and closed. -/
def del_pdf_pages {α : Type} (doc : List α) (del_pages : DelPagesArg) :
    DelPagesResult α :=
  match del_pages with
  | .int n =>
    match delete_page doc (n - 1) with
    | .ok d => ⟨d, some d, true, false, .int n, none⟩
    | .error e => ⟨doc, none, false, false, .int n, some e⟩
  | .list l =>
    let sorted := sortDesc l
    match delListLoop doc sorted with
    | (d, none) => ⟨d, some d, true, false, .list sorted, none⟩
    | (d, some e) => ⟨d, none, false, false, .list sorted, some e⟩
  | .other => ⟨doc, none, false, true, .other, none⟩

/-- Reference removal, written from the spec's words: walk the document
once with a 1-based position counter and keep exactly the pages whose
1-based index is not in `ps`. -/
def keepAux {α : Type} (ps : List Int) : List α → Int → List α
  | [], _ => []
  | x :: xs, i =>
    if i ∈ ps then keepAux ps xs (i + 1) else x :: keepAux ps xs (i + 1)

/-- One-pass reference deletion (spec, section 8): keep the pages whose
1-based index is not in `ps`. -/
def refDelete {α : Type} (doc : List α) (ps : List Int) : List α :=
  keepAux ps doc 1

/-- Embedding of `merge_pdf` (src lines 137-147) on page sequences.
`docs` lists the page sequences of the documents at the paths in
`pdf_list`, in order; `fitz.open` of each path and the `with` block are
absorbed into that.  `insert_pdf` appends the whole source document.
With `pdf=None` the base is a fresh empty document.  With a base document
the source evaluates `copy(pdf)` — but line 2 is `import copy`, so `copy`
is the *module*, and calling it raises `TypeError: 'module' object is not
callable` before anything is merged or saved. -/
def merge_pdf {α : Type} (pdf : Option (List α)) (docs : List (List α)) :
    Except PyErr (List α) :=
  match pdf with
  | none => .ok (docs.foldl (fun acc d => acc ++ d) [])
  | some _ => .error .typeError

/-- A fitz rectangle `fitz.Rect(x0, y0, x1, y1)`.  PDF coordinates are
reals; the arithmetic the source performs on them (doubling a width) is
exact, so they are modelled by rationals. -/
structure Rect : Type where
  x0 : ℚ
  y0 : ℚ
  x1 : ℚ
  y1 : ℚ
deriving DecidableEq, Repr

/-- A source page as the 2-in-1 composer sees it: its rectangle's width
and height (`page.rect.width`, `page.rect.height`). -/
structure PageDim : Type where
  width : ℚ
  height : ℚ
deriving DecidableEq, Repr

/-- One `new_page.show_pdf_page(target, pdf, i)` call: source page `i`
rendered into rectangle `target` of the new page. -/
structure Placement : Type where
  target : Rect
  src : Nat
deriving DecidableEq, Repr

/-- A page of the composed output document: its dimensions as passed to
`new_pdf.new_page(...)`, and the placements drawn onto it, in order. -/
structure OutPage : Type where
  width : ℚ
  height : ℚ
  placements : List Placement
deriving DecidableEq, Repr

/-- Embedding of `merge_pdf_2in1` (src lines 63-79) after resolution of
the document.  The loop `for i in range(0, len(pdf), 2)` visits exactly
`i = 2*j` for `j < (len+1)/2` (the iteration count of a step-2 range is
`ceil(len/2)`).  Each iteration creates a page of width
`pdf[0].rect.width * 2` and height `pdf[0].rect.height`, draws source page
`i` into `Rect(0, 0, w0, h0)` when `i < len`, and source page `i+1` into
`Rect(w0, 0, w0*2, h0)` when `i+1 < len`.  The loop only reads the source
document (`show_pdf_page` draws on the new page), so the second component
returns the source document's final — unchanged — page sequence. -/
def merge_pdf_2in1 (src : List PageDim) : List OutPage × List PageDim :=
  let w0 := (src.headD ⟨0, 0⟩).width
  let h0 := (src.headD ⟨0, 0⟩).height
  let out := (List.range ((src.length + 1) / 2)).map (fun j =>
    let i := 2 * j
    { width := w0 * 2
      height := h0
      placements :=
        (if i < src.length then [⟨⟨0, 0, w0, h0⟩, i⟩] else []) ++
        (if i + 1 < src.length then [⟨⟨w0, 0, w0 * 2, h0⟩, i + 1⟩] else []) })
  (out, src)

/-- Embedding of `split_pdf` (src lines 173-188) after the document at
`pdf_path` has been opened; `stem` is `Path(pdf_path).stem`.  The output
is the list of saved files in the order they are written: the `page_num`
iteration creates a fresh document, runs
`insert_pdf(doc, from_page=page_num, to_page=page_num)` (the inclusive
one-page range, i.e. `take 1` of `drop page_num`), and saves it as
`{stem}_p{page_num + 1}.pdf` before the next iteration starts. -/
def split_pdf {α : Type} (stem : String) (pages : List α) :
    List (String × List α) :=
  (List.range pages.length).map (fun page_num =>
    (stem ++ "_p" ++ toString (page_num + 1) ++ ".pdf",
     (pages.drop page_num).take 1))

/-- Embedding of `split_pdf_by_pages` (src lines 214-235) after the
document has been opened; `stem` is `Path(pdf_path).stem` and
`pagesPerDoc ≥ 1` (the CLI default is 10; `range` with step 0 would raise
in Python and is not modelled).  The loop
`for start_page in range(0, npage, pages_per_doc)` visits
`start_page = j * pagesPerDoc` for `j < ceil(npage / pagesPerDoc)` — the
iteration count of a step-`k` range — and `doc_num = j + 1`.  Each
iteration takes the inclusive page range
`[start_page, min(start_page + pages_per_doc - 1, npage - 1)]` and saves
it as `{stem}_{doc_num}.pdf`. -/
def split_pdf_by_pages {α : Type} (stem : String) (pages : List α)
    (pagesPerDoc : Nat) : List (String × List α) :=
  let npage := pages.length
  (List.range ((npage + pagesPerDoc - 1) / pagesPerDoc)).map (fun j =>
    let start_page := j * pagesPerDoc
    let end_page := min (start_page + pagesPerDoc - 1) (npage - 1)
    (stem ++ "_" ++ toString (j + 1) ++ ".pdf",
     (pages.drop start_page).take (end_page + 1 - start_page)))

/-- Python's `str.strip()`: drop whitespace from both ends (modelled on
the character list so that it evaluates by `decide`). -/
def pyStrip (s : String) : String :=
  ⟨(((s.data.dropWhile Char.isWhitespace).reverse.dropWhile
      Char.isWhitespace)).reverse⟩

/-- Python's `int(s)`: an integer on a well-formed literal, `ValueError`
otherwise (modelled by `String.toInt?`, which covers the optional-sign
digit strings the page-list syntax can produce). -/
def pyInt (s : String) : Except PyErr Int :=
  match s.toInt? with
  | some n => .ok n
  | none => .error .valueError

/-- Python's `range(a, b)` over integers: `a, a+1, ..., b-1` (empty when
`b ≤ a`). -/
def pyRange (a b : Int) : List Int :=
  (List.range (b - a).toNat).map (fun i => a + (i : Int))

/-- The token loop of `_parse_pages_list` (src lines 251-257): for each
part, a token containing a dash is split once on the first dash
(`p.split('-', 1)` — the tail is rejoined with dashes) and contributes
`range(int(a), int(b) + 1)`; any other token contributes `int(p)`.
`int` failures propagate as exceptions. -/
def parsePartsLoop : List String → Except PyErr (List Int)
  | [] => .ok []
  | p :: rest =>
    if p.contains '-' then
      match p.splitOn "-" with
      | [] => .error .valueError
      | a :: bs => do
        let av ← pyInt a
        let bv ← pyInt (String.intercalate "-" bs)
        let restv ← parsePartsLoop rest
        .ok (pyRange av (bv + 1) ++ restv)
    else do
      let v ← pyInt p
      let restv ← parsePartsLoop rest
      .ok (v :: restv)

/-- Embedding of `_parse_pages_list` (src lines 238-258).  The input is
stripped; a (now) empty string returns `None` (modelled `ok none`).
Otherwise commas are replaced by spaces and the string is split on
whitespace, dropping empty tokens (Python's no-argument `split`); the
per-token `strip` of the source is kept even though the splitter already
leaves the tokens trimmed. -/
def parse_pages_list (s : String) : Except PyErr (Option (List Int)) :=
  let s := pyStrip s
  if s = "" then .ok none
  else
    match parsePartsLoop
        ((((s.replace "," " ").split Char.isWhitespace).filter
          (fun p => p ≠ "")).map pyStrip) with
    | .ok nums => .ok (some nums)
    | .error e => .error e

/-- Embedding of the `delpages` CLI branch (src lines 301-304):
`parsed = _parse_pages_list(args.del_pages)` followed by
`del_pdf_pages(..., del_pages=(parsed if len(parsed) > 1 else parsed[0]), ...)`.
When the parser returns `None`, `len(parsed)` raises an uncaught
`TypeError`; when it returns `[]`, `parsed[0]` raises an uncaught
`IndexError`.  Otherwise a one-element list is passed as its single `int`
and a longer list is passed as a `list`. -/
def delpagesCommand {α : Type} (doc : List α) (raw : String) :
    Except PyErr (DelPagesResult α) :=
  match parse_pages_list raw with
  | .error e => .error e
  | .ok none => .error .typeError
  | .ok (some parsed) =>
    if parsed.length > 1 then .ok (del_pdf_pages doc (.list parsed))
    else
      match parsed with
      | [] => .error .indexError
      | p :: _ => .ok (del_pdf_pages doc (.int p))

instance : IsTotal Int (fun a b => a ≥ b) :=
  ⟨fun a b => le_total b a⟩

instance : IsTrans Int (fun a b => a ≥ b) :=
  ⟨fun _ _ _ h1 h2 => le_trans h2 h1⟩

instance : IsAntisymm Int (fun a b => a ≥ b) :=
  ⟨fun _ _ h1 h2 => le_antisymm h2 h1⟩

/-- Folding `acc ++ d` over a list of documents concatenates them all. -/
theorem foldl_append_eq {α : Type} (docs : List (List α)) (acc : List α) :
    docs.foldl (fun a d => a ++ d) acc = acc ++ docs.flatten := by
  induction docs generalizing acc with
  | nil => simp
  | cons d ds ih => simp [ih, List.append_assoc]

/-- C9: `check_pdf_args`, given exactly one of an already-open document
handle or a path, returns a usable document — the given handle unchanged,
or the document opened from the path — and raises the invalid-argument
error (`ValueError`) exactly in the two remaining shapes: both given, or
neither. -/
theorem check_pdf_args_exactly_one {D P : Type} (openDoc : P → D)
    (d : D) (p : P) :
    check_pdf_args openDoc none (some p) = .ok (openDoc p) ∧
    check_pdf_args openDoc (some d) none = .ok d ∧
    check_pdf_args openDoc (some d) (some p) = .error .valueError ∧
    check_pdf_args openDoc (none : Option D) (none : Option P) =
      .error .valueError :=
  ⟨rfl, rfl, rfl, rfl⟩

/-- C1 (documents a code bug): for every base document and every source
list, `merge_pdf` called with a base raises `TypeError` — line 140
evaluates `copy(pdf)`, where `copy` is the module imported on line 2 —
so the call never returns normally, and no merge from a copy of the base
ever happens, contrary to the claim and to the function's own
docstring ("if `pdf` is given, merge onto a copy of it"). -/
theorem merge_pdf_with_base_raises {α : Type} (base : List α)
    (docs : List (List α)) :
    merge_pdf (some base) docs = .error .typeError := rfl

/-- C6 (documents a code bug): a single `merge_pdf` call concatenates its
sources in list order — in particular `[A, B, C]` gives `A ++ B ++ C` —
but the claimed two-step route breaks: merging `[A]` yields a document
with pages `A`, and the second call, taking that result as its base,
raises `TypeError` at `copy(pdf)` (line 140 calls the imported module)
instead of returning `A ++ B ++ C`. -/
theorem merge_pdf_not_associative {α : Type} (A B C : List α)
    (docs : List (List α)) :
    merge_pdf none [A, B, C] = .ok (A ++ B ++ C) ∧
    merge_pdf none [A] = .ok A ∧
    merge_pdf (some A) [B, C] = .error .typeError ∧
    merge_pdf (none : Option (List α)) docs = .ok docs.flatten := by
  refine ⟨?_, ?_, rfl, ?_⟩ <;> simp [merge_pdf, foldl_append_eq]

/-- C2 (documents a code bug): on an empty or whitespace-only
`--del_pages` string the parser yields no pages (Python `None`), and the
`delpages` dispatch then evaluates `len(parsed)`, which raises an
uncaught `TypeError`.  No output file is produced, but the command does
not print a message and return non-fatally as claimed. -/
theorem delpages_empty_input_raises {α : Type} (doc : List α) (s : String)
    (h : pyStrip s = "") :
    delpagesCommand doc s = .error .typeError := by
  simp [delpagesCommand, parse_pages_list, h]

/-- Witness for `delpages_empty_input_raises` at a concrete whitespace
input. -/
theorem delpages_empty_input_raises_witness :
    delpagesCommand ([1, 2, 3] : List Nat) "  " = .error .typeError :=
  delpages_empty_input_raises [1, 2, 3] "  " (by decide)

/-- When every index of `ps` lies below the counter, the one-pass keep
filter keeps everything. -/
theorem keepAux_all_lt {α : Type} (ps : List Int) :
    ∀ (l : List α) (i : Int), (∀ p ∈ ps, p < i) → keepAux ps l i = l := by
  intro l
  induction l with
  | nil => intro i _; rfl
  | cons x xs ih =>
    intro i h
    have hx : i ∉ ps := fun hm => absurd (h i hm) (lt_irrefl i)
    have hnext : ∀ p ∈ ps, p < i + 1 :=
      fun p hp => lt_trans (h p hp) (by omega)
    simp [keepAux, hx, ih (i + 1) hnext]

/-- Deleting the page at 1-based position `m` (0-based `m - i` relative to
a counter `i ≤ m`) and then keeping the pages whose index avoids `ps` is
the same as keeping the pages whose index avoids `m :: ps`, provided every
index of `ps` is smaller than `m`.  This is the index-shift argument of
the spec: deleting the highest index first leaves all lower target
indices valid. -/
theorem keepAux_eraseIdx {α : Type} (ps : List Int) (m : Int)
    (hps : ∀ p ∈ ps, p < m) :
    ∀ (l : List α) (i : Int), i ≤ m →
      keepAux ps (l.eraseIdx (m - i).toNat) i = keepAux (m :: ps) l i := by
  intro l
  induction l with
  | nil => intro i _; rfl
  | cons x xs ih =>
    intro i hi
    rcases eq_or_lt_of_le hi with rfl | hlt
    · have e0 : ((x :: xs).eraseIdx (i - i).toNat) = xs := by simp
      rw [e0, keepAux_all_lt ps xs i hps]
      have estep : keepAux (i :: ps) (x :: xs) i = keepAux (i :: ps) xs (i + 1) := by
        simp [keepAux]
      rw [estep, keepAux_all_lt (i :: ps) xs (i + 1) ?_]
      intro p hp
      rcases List.mem_cons.mp hp with rfl | hp2
      · omega
      · exact lt_trans (hps p hp2) (by omega)
    · have hne : i ≠ m := ne_of_lt hlt
      have hk : (m - i).toNat = (m - (i + 1)).toNat + 1 := by omega
      rw [hk, List.eraseIdx_cons_succ]
      have hrec := ih (i + 1) (by omega)
      by_cases hc : i ∈ ps
      · simp [keepAux, hc, hne, hrec]
      · simp [keepAux, hc, hne, hrec]

/-- The deletion loop of `del_pdf_pages`, run on a strictly descending
list of valid 1-based pages, never raises and computes exactly the
one-pass keep filter. -/
theorem delListLoop_sorted_desc {α : Type} :
    ∀ (ps : List Int) (l : List α),
      List.Sorted (fun a b => a > b) ps →
      (∀ p ∈ ps, 1 ≤ p ∧ p ≤ (l.length : Int)) →
      delListLoop l ps = (keepAux ps l 1, none) := by
  intro ps
  induction ps with
  | nil =>
    intro l _ _
    rw [keepAux_all_lt [] l 1 (by intro p hp; cases hp)]
    rfl
  | cons m rest ih =>
    intro l hsort hval
    have hm := hval m (List.mem_cons_self m rest)
    have hdel : delete_page l (m - 1) = .ok (l.eraseIdx (m - 1).toNat) := by
      unfold delete_page
      rw [if_pos ⟨by omega, by omega⟩]
    have hrest_sorted : List.Sorted (fun a b => a > b) rest :=
      (List.sorted_cons.mp hsort).2
    have hmgt : ∀ p ∈ rest, p < m := (List.sorted_cons.mp hsort).1
    have hlen : (m - 1).toNat < l.length := by omega
    have hval' : ∀ p ∈ rest, 1 ≤ p ∧ p ≤ ((l.eraseIdx (m - 1).toNat).length : Int) := by
      intro p hp
      have h1 := hval p (List.mem_cons_of_mem m hp)
      have h2 := hmgt p hp
      rw [List.length_eraseIdx_of_lt hlen]
      constructor
      · exact h1.1
      · omega
    have hloop : delListLoop l (m :: rest) =
        delListLoop (l.eraseIdx (m - 1).toNat) rest := by
      simp [delListLoop, hdel]
    rw [hloop, ih (l.eraseIdx (m - 1).toNat) hrest_sorted hval']
    have := keepAux_eraseIdx rest m hmgt l 1 (by omega)
    rw [this]

/-- `list.sort(reverse=True)` permutes the list. -/
theorem sortDesc_perm (l : List Int) : List.Perm (sortDesc l) l :=
  List.perm_insertionSort _ l

/-- `list.sort(reverse=True)` sorts into (weakly) descending order. -/
theorem sortDesc_sorted (l : List Int) :
    List.Sorted (fun a b => a ≥ b) (sortDesc l) :=
  List.sorted_insertionSort _ l

/-- On a duplicate-free list, descending sorting is strictly
descending. -/
theorem sortDesc_sorted_strict (l : List Int) (h : l.Nodup) :
    List.Sorted (fun a b => a > b) (sortDesc l) := by
  have hs := sortDesc_sorted l
  have hnd : (sortDesc l).Nodup := ((sortDesc_perm l).nodup_iff).mpr h
  exact (hs.and hnd).imp (fun hab => lt_of_le_of_ne hab.1 (Ne.symm hab.2))

/-- Two index lists with the same membership produce the same one-pass
keep filter. -/
theorem keepAux_congr_mem {α : Type} (ps qs : List Int)
    (h : ∀ i : Int, i ∈ ps ↔ i ∈ qs) :
    ∀ (l : List α) (i : Int), keepAux ps l i = keepAux qs l i := by
  intro l
  induction l with
  | nil => intro i; rfl
  | cons x xs ih =>
    intro i
    by_cases hc : i ∈ ps
    · simp [keepAux, hc, (h i).mp hc, ih]
    · have hq : i ∉ qs := fun hqs => hc ((h i).mpr hqs)
      simp [keepAux, hc, hq, ih]

/-- Permuted inputs sort to the same descending list. -/
theorem sortDesc_eq_of_perm {l l' : List Int} (h : List.Perm l l') :
    sortDesc l = sortDesc l' :=
  List.eq_of_perm_of_sorted
    (((sortDesc_perm l).trans h).trans (sortDesc_perm l').symm)
    (sortDesc_sorted l) (sortDesc_sorted l')

/-- The full outcome of `del_pdf_pages` on a valid list argument: the
sorted-descending deletion loop computes the one-pass reference removal,
the result is saved and the document closed, no message is printed and no
exception is raised, and the caller's list ends up sorted descending. -/
theorem del_pdf_pages_list_eq {α : Type} (doc : List α) (S : List Int)
    (hnd : S.Nodup) (hval : ∀ p ∈ S, 1 ≤ p ∧ p ≤ (doc.length : Int)) :
    del_pdf_pages doc (.list S) =
      ⟨refDelete doc S, some (refDelete doc S), true, false,
        .list (sortDesc S), none⟩ := by
  have hperm := sortDesc_perm S
  have hsorted := sortDesc_sorted_strict S hnd
  have hval' : ∀ p ∈ sortDesc S, 1 ≤ p ∧ p ≤ (doc.length : Int) :=
    fun p hp => hval p (hperm.mem_iff.mp hp)
  have hloop := delListLoop_sorted_desc (sortDesc S) doc hsorted hval'
  have hkeep : keepAux (sortDesc S) doc 1 = keepAux S doc 1 :=
    keepAux_congr_mem _ _ (fun i => hperm.mem_iff) doc 1
  simp [del_pdf_pages, hloop, hkeep, refDelete]

/-- C3: for every valid set of 1-based page indices (duplicate-free, each
between 1 and the page count), the source's algorithm — sort descending,
then delete sequentially by shifted index — produces exactly the page
sequence of the one-pass reference removal that keeps the pages whose
1-based index is not in the set, and the final page sequence is the same
for any order `S'` in which the set is given. -/
theorem del_desc_eq_refDelete {α : Type} (doc : List α) (S S' : List Int)
    (hnd : S.Nodup) (hperm : List.Perm S S')
    (hval : ∀ p ∈ S, 1 ≤ p ∧ p ≤ (doc.length : Int)) :
    (del_pdf_pages doc (.list S)).doc = refDelete doc S ∧
    (del_pdf_pages doc (.list S')).doc = refDelete doc S := by
  have h1 := del_pdf_pages_list_eq doc S hnd hval
  have h2 := del_pdf_pages_list_eq doc S' (hperm.nodup_iff.mp hnd)
    (fun p hp => hval p (hperm.mem_iff.mpr hp))
  constructor
  · rw [h1]
  · rw [h2]
    exact keepAux_congr_mem S' S (fun i => Iff.symm hperm.mem_iff) doc 1

/-- Witness for `del_desc_eq_refDelete`: deleting pages {2, 4} from a
5-page document, in either given order, keeps pages 1, 3, 5. -/
theorem del_desc_eq_refDelete_witness :
    (del_pdf_pages ([10, 20, 30, 40, 50] : List Nat) (.list [2, 4])).doc =
      refDelete [10, 20, 30, 40, 50] [2, 4] ∧
    (del_pdf_pages ([10, 20, 30, 40, 50] : List Nat) (.list [4, 2])).doc =
      refDelete [10, 20, 30, 40, 50] [2, 4] :=
  del_desc_eq_refDelete [10, 20, 30, 40, 50] [2, 4] [4, 2]
    (by decide) (by decide) (by decide)

/-- C5: on a `del_pages` argument that is neither an int nor a list,
`del_pdf_pages` prints the error message and returns early — nothing is
saved, the resolved document is left unchanged and not closed, and no
exception escapes; on an int or a list of valid 1-based pages, the
document is mutated by the deletions, saved to the output path, and
closed. -/
theorem del_pdf_pages_type_dispatch {α : Type} (doc : List α) (n : Int)
    (S : List Int) (hn : 1 ≤ n ∧ n ≤ (doc.length : Int))
    (hnd : S.Nodup) (hS : ∀ p ∈ S, 1 ≤ p ∧ p ≤ (doc.length : Int)) :
    del_pdf_pages doc .other = ⟨doc, none, false, true, .other, none⟩ ∧
    del_pdf_pages doc (.int n) =
      ⟨doc.eraseIdx (n - 1).toNat, some (doc.eraseIdx (n - 1).toNat),
        true, false, .int n, none⟩ ∧
    del_pdf_pages doc (.list S) =
      ⟨refDelete doc S, some (refDelete doc S), true, false,
        .list (sortDesc S), none⟩ := by
  refine ⟨rfl, ?_, del_pdf_pages_list_eq doc S hnd hS⟩
  have hdel : delete_page doc (n - 1) = .ok (doc.eraseIdx (n - 1).toNat) := by
    unfold delete_page
    rw [if_pos ⟨by omega, by omega⟩]
  simp [del_pdf_pages, hdel]

/-- Witness for `del_pdf_pages_type_dispatch` on a 3-page document with
`del_pages = 2` and `del_pages = [1, 3]`. -/
theorem del_pdf_pages_type_dispatch_witness :
    del_pdf_pages ([10, 20, 30] : List Nat) .other =
      ⟨[10, 20, 30], none, false, true, .other, none⟩ ∧
    del_pdf_pages ([10, 20, 30] : List Nat) (.int 2) =
      ⟨[10, 30], some [10, 30], true, false, .int 2, none⟩ ∧
    del_pdf_pages ([10, 20, 30] : List Nat) (.list [1, 3]) =
      ⟨[20], some [20], true, false, .list [3, 1], none⟩ := by
  have h := del_pdf_pages_type_dispatch ([10, 20, 30] : List Nat) 2 [1, 3]
    (by decide) (by decide) (by decide)
  refine ⟨h.1, ?_, ?_⟩
  · have h2 := h.2.1
    simpa using h2
  · have h3 := h.2.2
    simpa using h3

/-- C10: on a list argument, `del_pdf_pages` sorts the caller's very list
in place into descending order before deleting: after the call the
caller's `del_pages` object is the descending reordering of what was
passed (an observable mutation), while the call's entire observable
outcome — in particular the deletion result — is the same for any order
of the same multiset of indices. -/
theorem del_pdf_pages_sorts_arg {α : Type} (doc : List α) (S S' : List Int)
    (hperm : List.Perm S S') :
    (del_pdf_pages doc (.list S)).delPagesAfter = .list (sortDesc S) ∧
    List.Sorted (fun a b => a ≥ b) (sortDesc S) ∧
    List.Perm (sortDesc S) S ∧
    del_pdf_pages doc (.list S) = del_pdf_pages doc (.list S') := by
  refine ⟨?_, sortDesc_sorted S, sortDesc_perm S, ?_⟩
  · simp only [del_pdf_pages]
    rcases h : delListLoop doc (sortDesc S) with ⟨d, e⟩
    cases e <;> simp [h]
  · simp only [del_pdf_pages, sortDesc_eq_of_perm hperm]

/-- Witness for `del_pdf_pages_sorts_arg`: passing `[1, 2]` leaves the
caller's list as `[2, 1]`, and passing `[2, 1]` gives the identical
outcome. -/
theorem del_pdf_pages_sorts_arg_witness :
    (del_pdf_pages ([10, 20, 30] : List Nat) (.list [1, 2])).delPagesAfter =
      .list [2, 1] ∧
    del_pdf_pages ([10, 20, 30] : List Nat) (.list [1, 2]) =
      del_pdf_pages ([10, 20, 30] : List Nat) (.list [2, 1]) := by
  have h := del_pdf_pages_sorts_arg ([10, 20, 30] : List Nat) [1, 2] [2, 1]
    (by decide)
  exact ⟨by rw [h.1]; decide, h.2.2.2⟩

/-- C4: on a source with at least one page, the 2-in-1 composer emits
exactly `ceil(N/2)` pages; output page `j` (0-based) has width twice the
first source page's width and exactly its height, holds source page `2j`
in the left half-rectangle `[0,0]x[w,h]`, and holds source page `2j+1` in
the right half-rectangle `[w,0]x[2w,h]` exactly when that page exists;
the source document is not modified. -/
theorem merge_pdf_2in1_spec (src : List PageDim) (h : src ≠ []) :
    ((merge_pdf_2in1 src).1).length = (src.length + 1) / 2 ∧
    (∀ j, j < (src.length + 1) / 2 →
      ((merge_pdf_2in1 src).1)[j]? =
        some { width := (src.headD ⟨0, 0⟩).width * 2
               height := (src.headD ⟨0, 0⟩).height
               placements :=
                 ⟨⟨0, 0, (src.headD ⟨0, 0⟩).width,
                    (src.headD ⟨0, 0⟩).height⟩, 2 * j⟩ ::
                 (if 2 * j + 1 < src.length then
                   [⟨⟨(src.headD ⟨0, 0⟩).width, 0,
                      (src.headD ⟨0, 0⟩).width * 2,
                      (src.headD ⟨0, 0⟩).height⟩, 2 * j + 1⟩]
                  else []) }) ∧
    (merge_pdf_2in1 src).2 = src := by
  have hpos : 0 < src.length := List.length_pos.mpr h
  refine ⟨by simp [merge_pdf_2in1], ?_, rfl⟩
  intro j hj
  have h2j : 2 * j < src.length := by omega
  simp only [merge_pdf_2in1, List.getElem?_map, List.getElem?_range hj,
    Option.map_some', if_pos h2j, List.singleton_append]

/-- Witness for `merge_pdf_2in1_spec` on a three-page source of width 4
and height 3: two output pages, the source untouched. -/
theorem merge_pdf_2in1_spec_witness :
    ((merge_pdf_2in1 [⟨4, 3⟩, ⟨4, 3⟩, ⟨4, 3⟩]).1).length = 2 ∧
    (merge_pdf_2in1 [⟨4, 3⟩, ⟨4, 3⟩, ⟨4, 3⟩]).2 = [⟨4, 3⟩, ⟨4, 3⟩, ⟨4, 3⟩] := by
  have h := merge_pdf_2in1_spec [⟨4, 3⟩, ⟨4, 3⟩, ⟨4, 3⟩]
    (List.cons_ne_nil _ _)
  exact ⟨h.1.trans (by decide), h.2.2⟩

/-- C8: splitting an `N`-page source produces exactly `N` single-page
files in page order: the `k`-th output (0-based position `k`) is named
`{stem}_p{k+1}.pdf` and contains exactly original page `k`.  Each output
is an element of the result sequence, written and closed before the next
position is processed. -/
theorem split_pdf_spec {α : Type} (stem : String) (pages : List α) :
    (split_pdf stem pages).length = pages.length ∧
    (∀ k x, pages[k]? = some x →
      (split_pdf stem pages)[k]? =
        some (stem ++ "_p" ++ toString (k + 1) ++ ".pdf", [x])) := by
  refine ⟨by simp [split_pdf], ?_⟩
  intro k x hx
  obtain ⟨hk, hget⟩ := List.getElem?_eq_some.mp hx
  have hdrop : (pages.drop k).take 1 = [x] := by
    rw [← List.getElem_cons_drop pages k hk, hget]
    simp
  simp only [split_pdf, List.getElem?_map, List.getElem?_range hk,
    Option.map_some', hdrop]

/-- Witness for `split_pdf_spec` on a three-page source: page 2 (1-based)
goes alone into `doc_p2.pdf`. -/
theorem split_pdf_spec_witness :
    (split_pdf "doc" ([7, 8, 9] : List Nat)).length = 3 ∧
    (split_pdf "doc" ([7, 8, 9] : List Nat))[1]? = some ("doc_p2.pdf", [8]) := by
  have h := split_pdf_spec "doc" ([7, 8, 9] : List Nat)
  refine ⟨h.1.trans (by decide), ?_⟩
  have h2 := h.2 1 8 (by decide)
  simpa using h2

/-- Counting lemma for a step-`k` range: a block index is below
`ceil(N/k)` exactly when its block start `a * k` is below `N`. -/
theorem lt_ceilDiv_iff (N k a : Nat) (hk : 0 < k) :
    a < (N + k - 1) / k ↔ a * k < N := by
  rw [Nat.lt_iff_add_one_le, Nat.le_div_iff_mul_le hk]
  have e : (a + 1) * k = a * k + k := by ring
  rw [e]
  generalize a * k = x
  omega

/-- The source's inclusive block bound and the half-open block bound
agree on every block that starts inside the document. -/
theorem chunk_count_eq (x N k : Nat) (hk : 0 < k) (hx : x < N) :
    min (x + k - 1) (N - 1) + 1 - x = min (x + k) N - x := by omega

/-- A block whose end stays inside the document has exactly `k` pages. -/
theorem chunk_len_mid (x N k : Nat) (h1 : x + k ≤ N) :
    min (min (x + k) N - x) (N - x) = k := by omega

/-- The final block, starting at a multiple of `k` strictly inside the
document and ending at or beyond its last page, has `N mod k` pages — or
`k` when `k` divides `N`. -/
theorem chunk_len_last (y N k : Nat) (hy : y % k = 0)
    (hlow : y < N) (hhigh : N ≤ y + k) :
    min (min (y + k) N - y) (N - y) =
      if N % k = 0 then k else N % k := by
  obtain ⟨m, hm⟩ := Nat.dvd_of_mod_eq_zero hy
  have hmod : N % k = (N - y) % k := by
    have e : N = k * m + (N - y) := by omega
    conv_lhs => rw [e]
    rw [Nat.mul_add_mod]
  have hL : min (min (y + k) N - y) (N - y) = N - y := by omega
  rw [hL, hmod]
  have hd2 : N - y ≤ k := by omega
  rcases eq_or_lt_of_le hd2 with heq | hlt
  · rw [heq, Nat.mod_self]
    simp [heq]
  · rw [Nat.mod_eq_of_lt hlt, if_neg (by omega)]

/-- C7: with chunk size `k ≥ 1` on an `N`-page source, Split-by-N emits
exactly `ceil(N/k)` files; the file at 0-based position `j` is named
`{stem}_{j+1}.pdf` and contains the source pages of the 0-based interval
`[j*k, min((j+1)*k, N) - 1]`; every file except possibly the last holds
exactly `k` pages, and the last holds `N mod k` pages, or `k` when `k`
divides `N`. -/
theorem split_pdf_by_pages_spec {α : Type} (stem : String) (pages : List α)
    (k : Nat) (hk : 1 ≤ k) :
    (split_pdf_by_pages stem pages k).length = (pages.length + k - 1) / k ∧
    (∀ j, j < (pages.length + k - 1) / k →
      (split_pdf_by_pages stem pages k)[j]? =
        some (stem ++ "_" ++ toString (j + 1) ++ ".pdf",
          (pages.drop (j * k)).take
            (min ((j + 1) * k) pages.length - j * k))) ∧
    (∀ j, j + 1 < (pages.length + k - 1) / k →
      ((split_pdf_by_pages stem pages k)[j]?).map (fun f => f.2.length) =
        some k) ∧
    (0 < pages.length →
      ((split_pdf_by_pages stem pages k)[(pages.length + k - 1) / k - 1]?).map
          (fun f => f.2.length) =
        some (if pages.length % k = 0 then k
              else pages.length % k)) := by
  have hcontent : ∀ j, j < (pages.length + k - 1) / k →
      (split_pdf_by_pages stem pages k)[j]? =
        some (stem ++ "_" ++ toString (j + 1) ++ ".pdf",
          (pages.drop (j * k)).take
            (min ((j + 1) * k) pages.length - j * k)) := by
    intro j hj
    have hjk : j * k < pages.length := (lt_ceilDiv_iff _ k j hk).mp hj
    have hcount := chunk_count_eq (j * k) pages.length k hk hjk
    simp only [split_pdf_by_pages, List.getElem?_map, List.getElem?_range hj,
      Option.map_some', Nat.succ_mul, hcount]
  refine ⟨by simp [split_pdf_by_pages], hcontent, ?_, ?_⟩
  · intro j hj1
    have hle : j * k + k ≤ pages.length := by
      have h1 := (lt_ceilDiv_iff pages.length k (j + 1) hk).mp hj1
      rw [Nat.succ_mul] at h1
      omega
    rw [hcontent j (by omega)]
    simp only [Option.map_some', List.length_take, List.length_drop,
      Nat.succ_mul]
    exact congrArg some (chunk_len_mid (j * k) pages.length k hle)
  · intro hN
    have hc : 0 < (pages.length + k - 1) / k :=
      (lt_ceilDiv_iff pages.length k 0 hk).mpr (by simpa using hN)
    have hjc : (pages.length + k - 1) / k - 1 < (pages.length + k - 1) / k := by
      omega
    rw [hcontent _ hjc]
    simp only [Option.map_some', List.length_take, List.length_drop]
    have e1 : (pages.length + k - 1) / k - 1 + 1 = (pages.length + k - 1) / k := by
      omega
    rw [e1]
    have hlow : ((pages.length + k - 1) / k - 1) * k < pages.length :=
      (lt_ceilDiv_iff pages.length k _ hk).mp hjc
    have hhigh : pages.length ≤ ((pages.length + k - 1) / k) * k := by
      by_contra hcon
      push_neg at hcon
      exact absurd ((lt_ceilDiv_iff pages.length k _ hk).mpr hcon)
        (lt_irrefl _)
    have e2 : ((pages.length + k - 1) / k) * k =
        ((pages.length + k - 1) / k - 1) * k + k := by
      conv_lhs => rw [← e1]
      rw [Nat.succ_mul]
    rw [e2] at hhigh ⊢
    exact congrArg some (chunk_len_last _ pages.length k
      (Nat.mul_mod_left _ _) hlow hhigh)

/-- Witness for `split_pdf_by_pages_spec`: chunk size 2 on a 5-page
source gives 3 files with page counts 2, 2 and 1. -/
theorem split_pdf_by_pages_spec_witness :
    (split_pdf_by_pages "doc" ([0, 1, 2, 3, 4] : List Nat) 2).length = 3 ∧
    ((split_pdf_by_pages "doc" ([0, 1, 2, 3, 4] : List Nat) 2)[1]?).map
      (fun f => f.2.length) = some 2 ∧
    ((split_pdf_by_pages "doc" ([0, 1, 2, 3, 4] : List Nat) 2)[2]?).map
      (fun f => f.2.length) = some 1 := by
  have h := split_pdf_by_pages_spec "doc" ([0, 1, 2, 3, 4] : List Nat) 2
    (by decide)
  refine ⟨h.1.trans (by decide), ?_, ?_⟩
  · exact h.2.2.1 1 (by decide)
  · have h4 := h.2.2.2 (by decide)
    simpa using h4

end PdfSpec
